import Mathlib

/-!
A shallow embedding of the StoneKV storage engine (package `stone`,
file `stone.go`): an append-only binary log on disk plus an in-memory
index mapping keys to the offsets of their latest value-length fields.

Bytes are modelled as `Nat` (real file bytes are < 256; nothing below
depends on that bound), a file as a `List Nat`, Go's `map[string]uint64`
as an association list with unique keys, and the store as the file
image, the index and the file handle's seek offset.  Fallible Go code
returns the error string it would produce; environment-dependent
failures (disk write failures, `Stat` failures) are exposed as explicit
outcome parameters.
-/

set_option linter.unusedVariables false

namespace StoneKV

/-- Little-endian 4-byte encoding of a length, as
`binary.LittleEndian.PutUint32(buf, uint32(n))` writes it (Go's
conversion to `uint32` truncates modulo 2^32). -/
def le32 (n : Nat) : List Nat :=
  [n % 256, n / 256 % 256, n / 256 ^ 2 % 256, n / 256 ^ 3 % 256]

/-- Little-endian decoding of a 4-byte buffer, as
`binary.LittleEndian.Uint32` reads it. -/
def dec32 (b : List Nat) : Nat :=
  b.getD 0 0 + 256 * b.getD 1 0 + 256 ^ 2 * b.getD 2 0 + 256 ^ 3 * b.getD 3 0

/-- The bytes a read returns: `n` bytes of the file starting at `pos`,
fewer if the file ends earlier (a short read). -/
def readBytes (file : List Nat) (pos n : Nat) : List Nat :=
  (file.drop pos).take n

/-- A zeroed Go buffer of length `n` whose front was overwritten by a
(possibly short) read returning `l`: models `make([]byte, n)` after
`Read`, which leaves the untouched tail of the buffer at zero. -/
def padZeros (n : Nat) (l : List Nat) : List Nat :=
  l ++ List.replicate (n - l.length) 0

/-- The in-memory index `map[string]uint64`: keys are the byte strings,
values are file offsets of value-length fields.  An association list
with unique keys models the map; Go's map iteration order is
unspecified, the list order is one admissible order. -/
abbrev Index := List (List Nat × Nat)

/-- Go `delete(index, k)`. -/
def idxDel (idx : Index) (k : List Nat) : Index :=
  idx.filter (fun e => !(e.1 == k))

/-- Go `index[k] = off` (insert or overwrite). -/
def idxSet (idx : Index) (k : List Nat) (off : Nat) : Index :=
  idxDel idx k ++ [(k, off)]

/-- Go `off, ok := index[k]`. -/
def idxGet (idx : Index) (k : List Nat) : Option Nat :=
  (idx.find? (fun e => e.1 == k)).map (fun e => e.2)

/-- The store: the log file's byte image, the in-memory index, and the
file handle's current seek offset (the offset never influences any
operation's result — every read seeks absolutely and every write
appends — but `Get` does move it, which is why it is part of the
state). -/
structure Store where
  file : List Nat
  index : Index
  pos : Nat
deriving DecidableEq, Repr

/-- The record `Set` serializes: kind byte 0, key length, key,
value length, value (stone.go lines 101-106). -/
def setRecord (k v : List Nat) : List Nat :=
  [0] ++ le32 k.length ++ k ++ le32 v.length ++ v

/-- The tombstone record `Delete` serializes: kind byte 1, key length,
key (stone.go lines 159-162). -/
def delRecord (k : List Nat) : List Nat :=
  [1] ++ le32 k.length ++ k

/-- Go `Set` on the success path: append the record (the file was opened
with O_APPEND, so the write lands at the end and leaves the handle
offset there), then point the index at the value-length field, at
`stat.Size() - len(record) + 1 + 4 + len(key)`. -/
def Set (st : Store) (k v : List Nat) : Store :=
  let record := setRecord k v
  let file := st.file ++ record
  let valLenOffset := file.length - record.length + 1 + 4 + k.length
  { file := file, index := idxSet st.index k valLenOffset, pos := file.length }

/-- Go `Delete` on the success path: append the tombstone unconditionally,
then remove the key from the index. -/
def Delete (st : Store) (k : List Nat) : Store :=
  { file := st.file ++ delRecord k
    index := idxDel st.index k
    pos := (st.file ++ delRecord k).length }

/-- Outcome of a Go file write: `ok`, or a failure after `n` bytes of
the buffer reached the file (Go reports partial writes as errors; the
log "may or may not contain a partial write"). -/
inductive WriteOutcome where
  | ok : WriteOutcome
  | fail : Nat → WriteOutcome
deriving DecidableEq, Repr

/-- Go `Set` with its two environment-dependent steps explicit: the
append (`file.Write`) and the `file.Stat` call.  The index update is
the last statement of the Go function, so every failure path leaves
the index untouched. -/
def SetAttempt (st : Store) (k v : List Nat) (w : WriteOutcome) (statOk : Bool) :
    Store × Option String :=
  match w with
  | .fail n =>
    let file := st.file ++ (setRecord k v).take n
    ({ st with file := file, pos := file.length }, some "failed to write record")
  | .ok =>
    if statOk then (Set st k v, none)
    else
      let file := st.file ++ setRecord k v
      ({ st with file := file, pos := file.length }, some "failed to get file stat")

/-- Go `Delete` with the append outcome explicit. -/
def DeleteAttempt (st : Store) (k : List Nat) (w : WriteOutcome) :
    Store × Option String :=
  match w with
  | .fail n =>
    let file := st.file ++ (delRecord k).take n
    ({ st with file := file, pos := file.length }, some "failed to write delete record")
  | .ok => (Delete st k, none)

/-- Go `Get`: look up the index; seek to the stored offset; `binary.Read`
the 4-byte value length (`io.ReadFull` semantics: 0 available bytes is
io.EOF, 1-3 is io.ErrUnexpectedEOF); read the value into a fresh
zeroed buffer of that length (a short read with at least one byte
available returns no error in Go and leaves the zero tail in place).
Returns the possibly-updated handle offset inside the store. -/
def Get (st : Store) (key : List Nat) : Store × Except String (List Nat) :=
  match idxGet st.index key with
  | none => (st, Except.error "key not found")
  | some off =>
    let avail1 := st.file.length - off
    if avail1 < 4 then
      ({ st with pos := off + min 4 avail1 },
        if avail1 = 0 then Except.error "failed to read value length: EOF"
        else Except.error "failed to read value length: unexpected EOF")
    else
      let valLen := dec32 (readBytes st.file off 4)
      let avail2 := st.file.length - (off + 4)
      if valLen ≠ 0 ∧ avail2 = 0 then
        ({ st with pos := off + 4 }, Except.error "failed to read value: EOF")
      else
        ({ st with pos := off + 4 + min valLen avail2 },
          Except.ok (padZeros valLen (readBytes st.file (off + 4) valLen)))

/-- Result of one iteration of the `buildIndex` replay loop: either the
loop terminates (cleanly or with an error), or it continues with an
updated index and cursor. -/
inductive StepRes where
  | done : Index × Option String → StepRes
  | next : Index → Nat → StepRes
deriving DecidableEq, Repr

/-- One iteration of the `buildIndex` replay loop, following stone.go
lines 46-92 exactly: read the kind byte (io.EOF here is the clean
exit), the 4-byte key length (`io.ReadFull` semantics: 0 available
bytes is io.EOF, 1-3 is io.ErrUnexpectedEOF), the key bytes into a
zeroed buffer (Go ignores the byte count the read returns, so a short
read leaves a zero tail and no error), and only then dispatch on the
kind.  A Set record stores `startOffset + 1 + 4 + keyLen` in the index
before reading the value length, then seeks past the value (a seek
beyond end-of-file succeeds). -/
def buildIndexStep (file : List Nat) (idx : Index) (pos : Nat) : StepRes :=
  if file.length ≤ pos then
    .done (idx, none)
  else
    let typeByte := file.getD pos 0
    if file.length < pos + 5 then
      if file.length ≤ pos + 1 then .done (idx, some "EOF")
      else .done (idx, some "unexpected EOF")
    else
      let keyLen := dec32 (readBytes file (pos + 1) 4)
      let availK := file.length - (pos + 5)
      if keyLen ≠ 0 ∧ availK = 0 then
        .done (idx, some "EOF")
      else
        let keyStr := padZeros keyLen (readBytes file (pos + 5) keyLen)
        let posK := pos + 5 + min keyLen availK
        if typeByte = 0 then
          let idx2 := idxSet idx keyStr (pos + 1 + 4 + keyLen)
          if file.length < posK + 4 then
            if file.length ≤ posK then .done (idx2, some "EOF")
            else .done (idx2, some "unexpected EOF")
          else
            let valLen := dec32 (readBytes file posK 4)
            .next idx2 (posK + 4 + valLen)
        else if typeByte = 1 then
          .next (idxDel idx keyStr) posK
        else
          .done (idx, some ("invalid record type: " ++ toString typeByte))

/-- The `buildIndex` replay loop.  `fuel` is a structural-recursion
artifact: each iteration advances `pos` by at least one byte, so any
fuel exceeding `file.length - pos` makes the zero-fuel branch dead
code; that branch mirrors the clean-EOF exit so that ample fuel never
changes the result (`buildIndexGo_fuel`). -/
def buildIndexGo : Nat → List Nat → Index → Nat → Index × Option String
  | 0, _, idx, _ => (idx, none)
  | fuel + 1, file, idx, pos =>
    match buildIndexStep file idx pos with
    | .done r => r
    | .next idx2 pos2 => buildIndexGo fuel file idx2 pos2

/-- The replay loop started at an arbitrary offset, with ample fuel. -/
def buildIndexLoop (file : List Nat) (idx : Index) (pos : Nat) : Index × Option String :=
  buildIndexGo (file.length + 1) file idx pos

/-- Go `(*Store).buildIndex`: replay the whole file from offset 0 onto the
current index (Go does not clear the map first — `NewStore` passes a
fresh empty map, `Polish` passes the live one). -/
def buildIndex (file : List Nat) (idx : Index) : Index × Option String :=
  buildIndexLoop file idx 0

/-- Go `NewStore`: open (the file image is the argument) and replay onto a
fresh index; a replay error aborts construction. -/
def NewStore (file : List Nat) : Except String Store :=
  match buildIndex file [] with
  | (idx, none) => Except.ok { file := file, index := idx, pos := file.length }
  | (_, some e) => Except.error ("failed to build index: " ++ e)

/-- The active-record loop shared verbatim by `Polish` (lines 198-230)
and the polished branch of `backupTo` (lines 276-305): for each index
entry seek to its offset, read the 4-byte value length, read that many
value bytes (zero-padded on a short read), and emit a freshly encoded
Set record.  Threads the handle offset; returns the concatenated
records or the first read error. -/
def activeRecords (file : List Nat) (entries : Index) (pos : Nat) :
    Nat × Except String (List Nat) :=
  match entries with
  | [] => (pos, Except.ok [])
  | (k, off) :: rest =>
    let avail1 := file.length - off
    if avail1 < 4 then
      (off + min 4 avail1,
        if avail1 = 0 then Except.error "failed to read value length: EOF"
        else Except.error "failed to read value length: unexpected EOF")
    else
      let valLen := dec32 (readBytes file off 4)
      let avail2 := file.length - (off + 4)
      if valLen ≠ 0 ∧ avail2 = 0 then (off + 4, Except.error "failed to read value: EOF")
      else
        let value := padZeros valLen (readBytes file (off + 4) valLen)
        let record := [0] ++ le32 k.length ++ k ++ le32 valLen ++ value
        match activeRecords file rest (off + 4 + min valLen avail2) with
        | (p, Except.ok bs) => (p, Except.ok (record ++ bs))
        | (p, Except.error e) => (p, Except.error e)

/-- Go `Backup(path, polished)`: the polished branch runs the
active-record loop against the live file (moving only the handle
offset) and writes the result to the backup path — returned here as
the byte payload; the full branch copies the live file through a
separate read handle, leaving the store untouched. -/
def Backup (st : Store) (polished : Bool) : Store × Except String (List Nat) :=
  if polished then
    match activeRecords st.file st.index st.pos with
    | (p, r) => ({ st with pos := p }, r)
  else
    (st, Except.ok st.file)

/-- Go `Polish` with its environment-dependent steps explicit: the full
backup copy, temp-file creation, and the temp-file writes (Go
interleaves the writes with the reads; a write failure aborts the loop
with the same untouched store state, so one outcome flag checked after
the read loop is equivalent).  On the success path the temp file is
renamed over the original (the file image is replaced wholesale) and
the index rebuilt by replay onto the live map; a rebuild error leaves
whatever partial index replay produced, exactly as the in-place map
mutation does in Go. -/
def PolishAttempt (st : Store) (backupOk tempOk writeOk : Bool) : Store × Option String :=
  if backupOk = false then
    (st, some "failed to create backup before polish")
  else if tempOk = false then
    (st, some "failed to create temp file")
  else
    match activeRecords st.file st.index st.pos with
    | (p, Except.error e) => ({ st with pos := p }, some e)
    | (p, Except.ok newFile) =>
      if writeOk = false then ({ st with pos := p }, some "failed to write polished record")
      else
        match buildIndex newFile st.index with
        | (idx2, some e) =>
          ({ file := newFile, index := idx2, pos := newFile.length },
            some ("failed to rebuild index after polish: " ++ e))
        | (idx2, none) =>
          ({ file := newFile, index := idx2, pos := newFile.length }, none)

/-- Go `Polish` when the environment cooperates. -/
def Polish (st : Store) : Store × Option String :=
  PolishAttempt st true true true

/-- A client operation against the store API. -/
inductive Op where
  | set : List Nat → List Nat → Op
  | del : List Nat → Op
deriving DecidableEq, Repr

/-- The key an operation touches. -/
def opKey : Op → List Nat
  | .set k _ => k
  | .del k => k

/-- The bytes an operation appends to the log. -/
def encodeOp : Op → List Nat
  | .set k v => setRecord k v
  | .del k => delRecord k

/-- The log a sequence of successful operations appends. -/
def encodeOps : List Op → List Nat
  | [] => []
  | op :: rest => encodeOp op ++ encodeOps rest

/-- Run one successful operation. -/
def applyOp (st : Store) : Op → Store
  | .set k v => Set st k v
  | .del k => Delete st k

/-- Run a sequence of successful operations. -/
def applyOps (st : Store) (ops : List Op) : Store :=
  ops.foldl applyOp st

/-- The store a fresh (empty) file opens to. -/
def emptyStore : Store :=
  { file := [], index := [], pos := 0 }

/-- Keys and values small enough for their `uint32` length fields to be
exact; the spec puts larger ones out of scope (keys/values beyond the
32-bit field width are undefined). -/
def opWF : Op → Prop
  | .set k v => k.length < 2 ^ 32 ∧ v.length < 2 ^ 32
  | .del k => k.length < 2 ^ 32

instance (op : Op) : Decidable (opWF op) :=
  match op with
  | .set k v => inferInstanceAs (Decidable (k.length < 2 ^ 32 ∧ v.length < 2 ^ 32))
  | .del k => inferInstanceAs (Decidable (k.length < 2 ^ 32))

/-- Every operation of the sequence is in scope. -/
def OpsWF (ops : List Op) : Prop :=
  ∀ op ∈ ops, opWF op

instance (ops : List Op) : Decidable (OpsWF ops) :=
  inferInstanceAs (Decidable (∀ op ∈ ops, opWF op))

/-- The value-length an index entry's offset points at. -/
def entryValLen (file : List Nat) (e : List Nat × Nat) : Nat :=
  dec32 (readBytes file e.2 4)

/-- The value bytes an index entry's offset points at (what `Get`
returns for a live key on a well-formed store). -/
def entryVal (file : List Nat) (e : List Nat × Nat) : List Nat :=
  readBytes file (e.2 + 4) (entryValLen file e)

/-- Key `k` is live at offset `off` with value `v`: the index maps it
there and the file holds the encoded value-length field and the value
itself at that offset. -/
def GoodAt (st : Store) (k v : List Nat) (off : Nat) : Prop :=
  idxGet st.index k = some off
  ∧ off + 4 + v.length ≤ st.file.length
  ∧ readBytes st.file off 4 = le32 v.length
  ∧ readBytes st.file (off + 4) v.length = v

/-- The invariant of every store reachable by successful operations
from an empty file: index keys are unique and within the 32-bit length
field's range, every entry points at a well-formed value-length field
and value inside the file, and the re-encoded live records fit within
the current file size. -/
structure StoreOK (st : Store) : Prop where
  nodup : (st.index.map (fun e => e.1)).Nodup
  keysWF : ∀ e ∈ st.index, e.1.length < 2 ^ 32
  entries : ∀ e ∈ st.index, ∃ v : List Nat, v.length < 2 ^ 32
    ∧ e.2 + 4 + v.length ≤ st.file.length
    ∧ readBytes st.file e.2 4 = le32 v.length
    ∧ readBytes st.file (e.2 + 4) v.length = v
  span : ((st.index.map (fun e => 9 + e.1.length + entryValLen st.file e)).sum)
    ≤ st.file.length

/-- The operations whose encodings the active-record loop emits: one
Set per index entry, in index order, each value read back from the
live file. -/
def liveOps (st : Store) : List Op :=
  st.index.map (fun e => Op.set e.1 (entryVal st.file e))

/-! ### Byte-level lemmas -/

theorem le32_length (n : Nat) : (le32 n).length = 4 := rfl

theorem dec32_le32 (n : Nat) : dec32 (le32 n) = n % 2 ^ 32 := by
  simp only [dec32, le32, List.getD_cons_zero, List.getD_cons_succ]
  omega

theorem dec32_le32_of_lt {n : Nat} (h : n < 2 ^ 32) : dec32 (le32 n) = n := by
  rw [dec32_le32, Nat.mod_eq_of_lt h]

theorem drop_len (a b : List Nat) : (a ++ b).drop a.length = b := by
  simp

theorem take_len (a b : List Nat) : (a ++ b).take a.length = a := by
  simp

theorem readBytes_of_append (a b c : List Nat) {p n : Nat}
    (hp : p = a.length) (hn : n = b.length) : readBytes (a ++ (b ++ c)) p n = b := by
  subst hp hn
  rw [readBytes, drop_len, take_len]

theorem readBytes_fin (a b : List Nat) {p n : Nat}
    (hp : p = a.length) (hn : n = b.length) : readBytes (a ++ b) p n = b := by
  subst hp hn
  rw [readBytes, drop_len, List.take_length]

theorem readBytes_append_left {f : List Nat} (g : List Nat) {pos n : Nat}
    (h : pos + n ≤ f.length) : readBytes (f ++ g) pos n = readBytes f pos n := by
  unfold readBytes
  rw [List.drop_append_eq_append_drop]
  have h2 : pos - f.length = 0 := by omega
  rw [h2, List.drop_zero, List.take_append_eq_append_take]
  have h3 : n - (f.drop pos).length = 0 := by
    rw [List.length_drop]; omega
  rw [h3, List.take_zero, List.append_nil]

theorem padZeros_of_length_eq {n : Nat} {l : List Nat} (h : l.length = n) :
    padZeros n l = l := by
  simp [padZeros, h]

theorem getD_append_len (a b : List Nat) (d : Nat) :
    (a ++ b).getD a.length d = b.getD 0 d := by
  unfold List.getD
  rw [List.get?_append_right (Nat.le_refl _), Nat.sub_self]

/-! ### Index lemmas -/

theorem find?_filter_none (idx : Index) (k : List Nat) :
    (idx.filter (fun e => !(e.1 == k))).find? (fun e => e.1 == k) = none := by
  rw [List.find?_eq_none]
  intro x hx
  have := List.of_mem_filter hx
  simp only [Bool.not_eq_true'] at this
  simp [this]

theorem find?_filter_comm (idx : Index) (k k2 : List Nat) (h : k2 ≠ k) :
    (idx.filter (fun e => !(e.1 == k))).find? (fun e => e.1 == k2)
      = idx.find? (fun e => e.1 == k2) := by
  induction idx with
  | nil => rfl
  | cons e rest ih =>
    by_cases he : e.1 = k
    · have h1 : (!(e.1 == k)) = false := by simp [he]
      have h2 : (e.1 == k2) = false := by
        simp only [beq_eq_false_iff_ne, he]
        exact fun hk => h hk.symm
      simp [List.filter_cons, h1, List.find?_cons, h2, ih]
    · have h1 : (!(e.1 == k)) = true := by simp [he]
      by_cases hp : e.1 = k2
      · have h2 : (e.1 == k2) = true := by simp [hp]
        simp [List.filter_cons, h1, List.find?_cons, h2]
      · have h2 : (e.1 == k2) = false := by simp [hp]
        simp [List.filter_cons, h1, List.find?_cons, h2, ih]

theorem idxGet_nil (k : List Nat) : idxGet [] k = none := rfl

theorem idxGet_idxSet_self (idx : Index) (k : List Nat) (off : Nat) :
    idxGet (idxSet idx k off) k = some off := by
  unfold idxGet idxSet idxDel
  rw [List.find?_append, find?_filter_none]
  simp [List.find?_cons]

theorem idxGet_idxSet_ne (idx : Index) (k k2 : List Nat) (off : Nat) (h : k2 ≠ k) :
    idxGet (idxSet idx k off) k2 = idxGet idx k2 := by
  unfold idxGet idxSet idxDel
  rw [List.find?_append, find?_filter_comm idx k k2 h]
  have hf : (((k, off) : List Nat × Nat).1 == k2) = false := by
    simp only [beq_eq_false_iff_ne]
    exact fun hk => h hk.symm
  have : ([(k, off)].find? (fun e => e.1 == k2)) = none := by
    simp [List.find?_cons, hf]
  rw [this]
  cases idx.find? (fun e => e.1 == k2) <;> rfl

theorem idxGet_idxDel_self (idx : Index) (k : List Nat) :
    idxGet (idxDel idx k) k = none := by
  unfold idxGet idxDel
  rw [find?_filter_none]
  rfl

theorem idxGet_idxDel_ne (idx : Index) (k k2 : List Nat) (h : k2 ≠ k) :
    idxGet (idxDel idx k) k2 = idxGet idx k2 := by
  unfold idxGet idxDel
  rw [find?_filter_comm idx k k2 h]

theorem idxGet_eq_none_iff (idx : Index) (k : List Nat) :
    idxGet idx k = none ↔ ∀ e ∈ idx, e.1 ≠ k := by
  unfold idxGet
  rw [Option.map_eq_none', List.find?_eq_none]
  constructor
  · intro h e he
    have := h e he
    simpa using this
  · intro h e he
    simpa using h e he

theorem mem_of_idxGet_eq_some {idx : Index} {k : List Nat} {off : Nat}
    (h : idxGet idx k = some off) : (k, off) ∈ idx := by
  unfold idxGet at h
  rw [Option.map_eq_some'] at h
  obtain ⟨e, he, he2⟩ := h
  have hmem := List.mem_of_find?_eq_some he
  have hpred := List.find?_some he
  simp only [beq_iff_eq] at hpred
  have : e = (k, off) := by
    cases e with
    | mk e1 e2 => simp_all
  rwa [this] at hmem

theorem idxGet_of_mem_nodup {idx : Index} {k : List Nat} {off : Nat}
    (hnd : (idx.map (fun e => e.1)).Nodup) (hmem : (k, off) ∈ idx) :
    idxGet idx k = some off := by
  induction idx with
  | nil => cases hmem
  | cons e rest ih =>
    rw [List.map_cons, List.nodup_cons] at hnd
    rcases List.mem_cons.mp hmem with heq | hrest
    · subst heq
      unfold idxGet
      simp [List.find?_cons]
    · have hne : e.1 ≠ k := by
        intro hk
        exact hnd.1 (hk ▸ List.mem_map.mpr ⟨(k, off), hrest, rfl⟩)
      unfold idxGet
      rw [List.find?_cons]
      have : (e.1 == k) = false := by simpa using hne
      rw [this]
      exact ih hnd.2 hrest

theorem mem_idxDel {idx : Index} {k : List Nat} {e : List Nat × Nat}
    (h : e ∈ idxDel idx k) : e ∈ idx ∧ e.1 ≠ k := by
  unfold idxDel at h
  refine ⟨List.mem_of_mem_filter h, ?_⟩
  have := List.of_mem_filter h
  simpa using this

theorem mem_idxSet {idx : Index} {k : List Nat} {off : Nat} {e : List Nat × Nat}
    (h : e ∈ idxSet idx k off) : (e ∈ idx ∧ e.1 ≠ k) ∨ e = (k, off) := by
  unfold idxSet at h
  rcases List.mem_append.mp h with h1 | h2
  · exact Or.inl (mem_idxDel h1)
  · simp at h2
    exact Or.inr (by cases e; simp_all)

theorem nodup_keys_idxDel {idx : Index} (k : List Nat)
    (h : (idx.map (fun e => e.1)).Nodup) :
    ((idxDel idx k).map (fun e => e.1)).Nodup := by
  exact ((List.filter_sublist idx).map (fun e => e.1)).nodup h

theorem nodup_keys_idxSet {idx : Index} (k : List Nat) (off : Nat)
    (h : (idx.map (fun e => e.1)).Nodup) :
    ((idxSet idx k off).map (fun e => e.1)).Nodup := by
  unfold idxSet
  rw [List.map_append, List.nodup_append]
  refine ⟨nodup_keys_idxDel k h, by simp, ?_⟩
  intro a ha
  rcases List.mem_map.mp ha with ⟨e, he, hfst⟩
  have := (mem_idxDel he).2
  simp only [List.map_cons, List.map_nil, List.mem_singleton]
  intro hb
  rw [hb] at hfst
  exact this hfst

/-! ### Record and operation lemmas -/

theorem setRecord_length (k v : List Nat) :
    (setRecord k v).length = 9 + k.length + v.length := by
  simp [setRecord, le32]
  omega

theorem delRecord_length (k : List Nat) :
    (delRecord k).length = 5 + k.length := by
  simp [delRecord, le32]
  omega

theorem Set_eq (st : Store) (k v : List Nat) :
    Set st k v = { file := st.file ++ setRecord k v,
                   index := idxSet st.index k (st.file.length + 5 + k.length),
                   pos := st.file.length + (setRecord k v).length } := by
  simp only [Set, List.length_append]
  rw [show st.file.length + (setRecord k v).length - (setRecord k v).length + 1 + 4
      + k.length = st.file.length + 5 + k.length from by omega]

theorem Delete_eq (st : Store) (k : List Nat) :
    Delete st k = { file := st.file ++ delRecord k,
                    index := idxDel st.index k,
                    pos := st.file.length + (delRecord k).length } := by
  simp only [Delete, List.length_append]

theorem applyOp_file (st : Store) (op : Op) :
    (applyOp st op).file = st.file ++ encodeOp op := by
  cases op with
  | set k v => simp [applyOp, Set_eq, encodeOp]
  | del k => simp [applyOp, Delete_eq, encodeOp]

theorem applyOps_file (ops : List Op) : ∀ (st : Store),
    (applyOps st ops).file = st.file ++ encodeOps ops := by
  induction ops with
  | nil => intro st; simp [applyOps, encodeOps]
  | cons op rest ih =>
    intro st
    show (applyOps (applyOp st op) rest).file = _
    rw [ih, applyOp_file, encodeOps, List.append_assoc]

/-! ### Replay loop: fuel irrelevance and single steps -/

theorem buildIndexStep_eof {file : List Nat} {idx : Index} {pos : Nat}
    (h : file.length ≤ pos) : buildIndexStep file idx pos = .done (idx, none) := by
  unfold buildIndexStep
  rw [if_pos h]

theorem buildIndexStep_next_bound {file : List Nat} {idx idx2 : Index} {pos pos2 : Nat}
    (h : buildIndexStep file idx pos = .next idx2 pos2) :
    pos + 5 ≤ pos2 ∧ pos < file.length := by
  simp only [buildIndexStep] at h
  split_ifs at h <;> simp_all <;> omega

theorem buildIndexGo_fuel : ∀ (f1 : Nat) {f2 : Nat} (file : List Nat) (idx : Index) (pos : Nat),
    file.length < f1 + pos → file.length < f2 + pos →
    buildIndexGo f1 file idx pos = buildIndexGo f2 file idx pos := by
  intro f1
  induction f1 with
  | zero =>
    intro f2 file idx pos h1 h2
    cases f2 with
    | zero => rfl
    | succ f2 =>
      show _ = buildIndexGo (f2 + 1) file idx pos
      simp only [buildIndexGo, buildIndexStep_eof (by omega : file.length ≤ pos)]
  | succ f1 ih =>
    intro f2 file idx pos h1 h2
    cases f2 with
    | zero =>
      show buildIndexGo (f1 + 1) file idx pos = _
      simp only [buildIndexGo, buildIndexStep_eof (by omega : file.length ≤ pos)]
    | succ f2 =>
      show buildIndexGo (f1 + 1) file idx pos = buildIndexGo (f2 + 1) file idx pos
      simp only [buildIndexGo]
      cases hs : buildIndexStep file idx pos with
      | done r => rfl
      | next idx2 pos2 =>
        have hb := buildIndexStep_next_bound hs
        exact ih file idx2 pos2 (by omega) (by omega)

theorem buildIndexLoop_done {file : List Nat} {idx : Index} {pos : Nat}
    {r : Index × Option String} (h : buildIndexStep file idx pos = .done r) :
    buildIndexLoop file idx pos = r := by
  unfold buildIndexLoop
  simp only [buildIndexGo, h]

theorem buildIndexLoop_next {file : List Nat} {idx idx2 : Index} {pos pos2 : Nat}
    (h : buildIndexStep file idx pos = .next idx2 pos2) :
    buildIndexLoop file idx pos = buildIndexLoop file idx2 pos2 := by
  have hb := buildIndexStep_next_bound h
  show buildIndexGo (file.length + 1) file idx pos = buildIndexGo (file.length + 1) file idx2 pos2
  calc buildIndexGo (file.length + 1) file idx pos
      = buildIndexGo file.length file idx2 pos2 := by simp only [buildIndexGo, h]
    _ = buildIndexGo (file.length + 1) file idx2 pos2 :=
        buildIndexGo_fuel file.length file idx2 pos2 (by omega) (by omega)

theorem buildIndexStep_set (pre rest k v : List Nat) (idx : Index)
    (hk : k.length < 2 ^ 32) (hv : v.length < 2 ^ 32) :
    buildIndexStep (pre ++ setRecord k v ++ rest) idx pre.length
      = .next (idxSet idx k (pre.length + 1 + 4 + k.length))
          (pre.length + (setRecord k v).length) := by
  have hlen : (pre ++ setRecord k v ++ rest).length
      = pre.length + (9 + k.length + v.length) + rest.length := by
    simp [List.length_append, setRecord_length]
    omega
  have f1 : (pre ++ setRecord k v ++ rest).getD pre.length 0 = 0 := by
    rw [List.append_assoc, getD_append_len]
    have : setRecord k v ++ rest
        = 0 :: (le32 k.length ++ (k ++ (le32 v.length ++ (v ++ rest)))) := by
      simp [setRecord]
    rw [this, List.getD_cons_zero]
  have f2 : readBytes (pre ++ setRecord k v ++ rest) (pre.length + 1) 4 = le32 k.length := by
    rw [show pre ++ setRecord k v ++ rest
        = (pre ++ [0]) ++ (le32 k.length ++ (k ++ (le32 v.length ++ (v ++ rest)))) from by
      simp [setRecord]]
    exact readBytes_of_append _ _ _ (by simp) (by simp [le32])
  have f3 : readBytes (pre ++ setRecord k v ++ rest) (pre.length + 5) k.length = k := by
    rw [show pre ++ setRecord k v ++ rest
        = (pre ++ [0] ++ le32 k.length) ++ (k ++ (le32 v.length ++ (v ++ rest))) from by
      simp [setRecord]]
    exact readBytes_of_append _ _ _ (by simp [le32]) rfl
  have f4 : readBytes (pre ++ setRecord k v ++ rest) (pre.length + 5 + k.length) 4
      = le32 v.length := by
    rw [show pre ++ setRecord k v ++ rest
        = (pre ++ [0] ++ le32 k.length ++ k) ++ (le32 v.length ++ (v ++ rest)) from by
      simp [setRecord]]
    exact readBytes_of_append _ _ _ (by simp [le32]; omega) (by simp [le32])
  simp only [buildIndexStep, f1, f2, dec32_le32_of_lt hk]
  rw [if_neg (by omega), if_neg (by omega), if_neg (by omega)]
  have m1 : min k.length ((pre ++ setRecord k v ++ rest).length - (pre.length + 5))
      = k.length := Nat.min_eq_left (by omega)
  simp only [if_true, m1, f3, padZeros_of_length_eq rfl]
  rw [if_neg (by omega)]
  simp only [f4, dec32_le32_of_lt hv, setRecord_length]
  congr 1
  omega

theorem buildIndexStep_del (pre rest k : List Nat) (idx : Index)
    (hk : k.length < 2 ^ 32) :
    buildIndexStep (pre ++ delRecord k ++ rest) idx pre.length
      = .next (idxDel idx k) (pre.length + (delRecord k).length) := by
  have hlen : (pre ++ delRecord k ++ rest).length
      = pre.length + (5 + k.length) + rest.length := by
    simp [List.length_append, delRecord_length]
    omega
  have f1 : (pre ++ delRecord k ++ rest).getD pre.length 0 = 1 := by
    rw [List.append_assoc, getD_append_len]
    have : delRecord k ++ rest = 1 :: (le32 k.length ++ (k ++ rest)) := by
      simp [delRecord]
    rw [this, List.getD_cons_zero]
  have f2 : readBytes (pre ++ delRecord k ++ rest) (pre.length + 1) 4 = le32 k.length := by
    rw [show pre ++ delRecord k ++ rest
        = (pre ++ [1]) ++ (le32 k.length ++ (k ++ rest)) from by simp [delRecord]]
    exact readBytes_of_append _ _ _ (by simp) (by simp [le32])
  have f3 : readBytes (pre ++ delRecord k ++ rest) (pre.length + 5) k.length = k := by
    rw [show pre ++ delRecord k ++ rest
        = (pre ++ [1] ++ le32 k.length) ++ (k ++ rest) from by simp [delRecord]]
    exact readBytes_of_append _ _ _ (by simp [le32]) rfl
  simp only [buildIndexStep, f1, f2, dec32_le32_of_lt hk]
  rw [if_neg (by omega), if_neg (by omega), if_neg (by omega), if_neg (by omega)]
  have m1 : min k.length ((pre ++ delRecord k ++ rest).length - (pre.length + 5))
      = k.length := Nat.min_eq_left (by omega)
  simp only [if_true, m1, f3, padZeros_of_length_eq rfl, delRecord_length]
  congr 1
  omega

/-! ### Replay of a log produced by a sequence of operations -/

theorem replay_ops (ops : List Op) : ∀ (pre : List Nat) (idx : Index) (p : Nat),
    OpsWF ops →
    buildIndexLoop (pre ++ encodeOps ops) idx pre.length
      = ((applyOps { file := pre, index := idx, pos := p } ops).index, none) := by
  induction ops with
  | nil =>
    intro pre idx p _
    rw [show encodeOps [] = [] from rfl, List.append_nil,
      buildIndexLoop_done (buildIndexStep_eof (Nat.le_refl _))]
    rfl
  | cons op rest ih =>
    intro pre idx p hwf
    have hop := hwf op (List.mem_cons_self _ _)
    have hrest : OpsWF rest := fun o ho => hwf o (List.mem_cons_of_mem _ ho)
    cases op with
    | set k v =>
      rw [show encodeOps (Op.set k v :: rest) = setRecord k v ++ encodeOps rest from rfl,
        ← List.append_assoc,
        buildIndexLoop_next (buildIndexStep_set pre (encodeOps rest) k v idx hop.1 hop.2),
        show pre.length + 1 + 4 + k.length = pre.length + 5 + k.length from by omega]
      have e1 : pre.length + (setRecord k v).length = (pre ++ setRecord k v).length := by
        simp [List.length_append]
      rw [e1, ih (pre ++ setRecord k v) (idxSet idx k (pre.length + 5 + k.length))
          (pre.length + (setRecord k v).length) hrest,
        show applyOps { file := pre, index := idx, pos := p } (Op.set k v :: rest)
          = applyOps (Set { file := pre, index := idx, pos := p } k v) rest from rfl,
        Set_eq]
    | del k =>
      rw [show encodeOps (Op.del k :: rest) = delRecord k ++ encodeOps rest from rfl,
        ← List.append_assoc,
        buildIndexLoop_next (buildIndexStep_del pre (encodeOps rest) k idx hop)]
      have e1 : pre.length + (delRecord k).length = (pre ++ delRecord k).length := by
        simp [List.length_append]
      rw [e1, ih (pre ++ delRecord k) (idxDel idx k)
          (pre.length + (delRecord k).length) hrest,
        show applyOps { file := pre, index := idx, pos := p } (Op.del k :: rest)
          = applyOps (Delete { file := pre, index := idx, pos := p } k) rest from rfl,
        Delete_eq]

/-- C2: for every log produced by a sequence of successful Set and
Delete operations from an empty file, replaying it from offset 0 (as
`buildIndex` does, onto a fresh index) yields exactly the store's
in-memory index — the same key set, each key mapped to the offset of
the value-length field of its most recent Set record — with no
error. -/
theorem replay_rebuilds_index (ops : List Op) (hwf : OpsWF ops) :
    buildIndex (applyOps emptyStore ops).file []
      = ((applyOps emptyStore ops).index, none) := by
  have h := replay_ops ops [] [] 0 hwf
  rw [List.nil_append] at h
  simp only [List.length_nil] at h
  rw [applyOps_file, show emptyStore.file = [] from rfl, List.nil_append]
  exact h

/-- Witness for C2 at a concrete operation sequence. -/
theorem replay_rebuilds_index_witness :
    OpsWF [Op.set [1] [2, 3], Op.set [4] [5], Op.del [1]]
    ∧ buildIndex (applyOps emptyStore [Op.set [1] [2, 3], Op.set [4] [5], Op.del [1]]).file []
        = ((applyOps emptyStore [Op.set [1] [2, 3], Op.set [4] [5], Op.del [1]]).index, none) :=
  ⟨by decide, replay_rebuilds_index _ (by decide)⟩

/-! ### Liveness of a key: what Get needs to return a value -/

theorem goodAt_Set (st : Store) (k v : List Nat) :
    GoodAt (Set st k v) k v (st.file.length + 5 + k.length) := by
  rw [Set_eq]
  refine ⟨idxGet_idxSet_self _ _ _, ?_, ?_, ?_⟩
  · simp only [List.length_append, setRecord_length]
    omega
  · rw [show st.file ++ setRecord k v
        = (st.file ++ [0] ++ le32 k.length ++ k) ++ (le32 v.length ++ v) from by
      simp [setRecord]]
    exact readBytes_of_append _ _ _
      (by simp only [List.length_append, List.length_cons, List.length_nil, le32_length])
      (by simp [le32])
  · rw [show st.file ++ setRecord k v
        = (st.file ++ [0] ++ le32 k.length ++ k ++ le32 v.length) ++ v from by
      simp [setRecord]]
    exact readBytes_fin _ _
      (by simp only [List.length_append, List.length_cons, List.length_nil, le32_length])
      rfl

theorem goodAt_applyOp {st : Store} {k v : List Nat} {off : Nat} {op : Op}
    (hne : opKey op ≠ k) (h : GoodAt st k v off) : GoodAt (applyOp st op) k v off := by
  obtain ⟨h1, h2, h3, h4⟩ := h
  cases op with
  | set k2 v2 =>
    have hk : k ≠ k2 := fun he => hne (he ▸ rfl)
    rw [show applyOp st (Op.set k2 v2) = Set st k2 v2 from rfl, Set_eq]
    refine ⟨?_, ?_, ?_, ?_⟩
    · rw [idxGet_idxSet_ne _ _ _ _ hk]; exact h1
    · simp only [List.length_append]; omega
    · rw [readBytes_append_left _ (by omega)]; exact h3
    · rw [readBytes_append_left _ (by omega)]; exact h4
  | del k2 =>
    have hk : k ≠ k2 := fun he => hne (he ▸ rfl)
    rw [show applyOp st (Op.del k2) = Delete st k2 from rfl, Delete_eq]
    refine ⟨?_, ?_, ?_, ?_⟩
    · rw [idxGet_idxDel_ne _ _ _ hk]; exact h1
    · simp only [List.length_append]; omega
    · rw [readBytes_append_left _ (by omega)]; exact h3
    · rw [readBytes_append_left _ (by omega)]; exact h4

theorem goodAt_applyOps {k v : List Nat} {off : Nat} (ops : List Op) :
    ∀ (st : Store), (∀ op ∈ ops, opKey op ≠ k) → GoodAt st k v off →
    GoodAt (applyOps st ops) k v off := by
  induction ops with
  | nil => intro st _ h; exact h
  | cons op rest ih =>
    intro st hops h
    exact ih (applyOp st op)
      (fun o ho => hops o (List.mem_cons_of_mem _ ho))
      (goodAt_applyOp (hops op (List.mem_cons_self _ _)) h)

theorem Get_of_goodAt {st : Store} {k v : List Nat} {off : Nat}
    (hv : v.length < 2 ^ 32) (h : GoodAt st k v off) :
    (Get st k).2 = Except.ok v := by
  obtain ⟨h1, h2, h3, h4⟩ := h
  simp only [Get, h1, h3, dec32_le32_of_lt hv]
  rw [if_neg (by omega), if_neg (by omega)]
  simp only [h4, padZeros_of_length_eq rfl]

/-- C1: for every starting store, a successful `Set(k, v)` followed by
any successful operations on other keys and then `Get(k)` returns
exactly `v` — for arbitrary key bytes and arbitrary value bytes
(embedded zeros included; value lengths at or beyond 2^32 are outside
the spec's 32-bit length fields). -/
theorem set_then_get (st : Store) (k v : List Nat) (hv : v.length < 2 ^ 32)
    (ops : List Op) (hops : ∀ op ∈ ops, opKey op ≠ k) :
    (Get (applyOps (Set st k v) ops) k).2 = Except.ok v :=
  Get_of_goodAt hv (goodAt_applyOps ops (Set st k v) hops (goodAt_Set st k v))

/-- Witness for C1: an empty store, a key and value with embedded zero
bytes, and intervening operations on other keys. -/
theorem set_then_get_witness :
    ([0, 7, 0] : List Nat).length < 2 ^ 32
    ∧ (∀ op ∈ [Op.set [1] [2], Op.del [9]], opKey op ≠ [0, 255])
    ∧ (Get (applyOps (Set emptyStore [0, 255] [0, 7, 0])
        [Op.set [1] [2], Op.del [9]]) [0, 255]).2 = Except.ok [0, 7, 0] :=
  ⟨by decide, by decide, set_then_get _ _ _ (by decide) _ (by decide)⟩

/-! ### Frame and failure behaviour of the simple operations -/

/-- C10: `Get` leaves the observable store state unchanged — the log
file's bytes and the in-memory index are identical before and after
the call (only the file handle's seek offset moves), whether the call
returns a value, fails with key-not-found, or fails with a read
error. -/
theorem get_frame (st : Store) (k : List Nat) :
    (Get st k).1.file = st.file ∧ (Get st k).1.index = st.index := by
  cases h : idxGet st.index k with
  | none => simp [Get, h]
  | some off =>
    simp only [Get, h]
    split_ifs <;> simp

/-- C6: `Set(k, v)` then `Delete(k)` makes `Get(k)` fail with
key-not-found; and on every store — whether or not the key was ever
set — `Delete` succeeds without error and appends its tombstone record
unconditionally. -/
theorem delete_semantics (st st2 : Store) (k v : List Nat) :
    (Get (Delete (Set st k v) k) k).2 = Except.error "key not found"
    ∧ DeleteAttempt st2 k .ok = (Delete st2 k, none)
    ∧ (Delete st2 k).file = st2.file ++ delRecord k := by
  refine ⟨?_, rfl, rfl⟩
  have h : idxGet (Delete (Set st k v) k).index k = none := by
    rw [Delete_eq]
    exact idxGet_idxDel_self _ _
  simp only [Get, h]

/-- C7: if the append inside `Set` fails (leaving any partial write in
the log), `Set` returns the write error and the in-memory index is
left completely untouched — the mapping of that key and of every other
key is exactly as before the call. -/
theorem set_failure_frame (st : Store) (k v : List Nat) (n : Nat) (statOk : Bool) :
    (SetAttempt st k v (.fail n) statOk).2 = some "failed to write record"
    ∧ (SetAttempt st k v (.fail n) statOk).1.index = st.index :=
  ⟨rfl, rfl⟩

/-! ### Truncated logs and corrupt kind bytes -/

/-- C3 (the code's actual behaviour at the failing inputs): a log whose
final Set record announces a 1-byte value but was truncated before the
value byte replays cleanly — the seek past the value lands beyond
end-of-file, the next header read reports a clean EOF, and `NewStore`
returns a working store with a fully-populated index instead of
failing; likewise a Delete record truncated inside its key bytes
replays cleanly (the short read returns no error in Go). -/
theorem truncated_log_opens_cleanly :
    NewStore [0, 1, 0, 0, 0, 97, 1, 0, 0, 0]
      = Except.ok { file := [0, 1, 0, 0, 0, 97, 1, 0, 0, 0],
                    index := [([97], 6)], pos := 10 }
    ∧ buildIndex [1, 3, 0, 0, 0, 97] [] = ([], none) :=
  ⟨rfl, rfl⟩

/-- C9 counterexample: the corrupt-record error does not carry the file
offset — a bad kind byte at offset 0 and one at offset 10 produce the
identical error (it carries the kind value instead), and a bad kind
byte whose record is truncated right after it yields a bare io.EOF
error rather than a corrupt-record error. -/
theorem corrupt_kind_error_no_offset :
    buildIndex [5, 0, 0, 0, 0] [] = ([], some "invalid record type: 5")
    ∧ buildIndex (setRecord [97] [] ++ [5, 0, 0, 0, 0]) []
        = ([([97], 6)], some "invalid record type: 5")
    ∧ buildIndex [5] [] = ([], some "EOF") :=
  ⟨rfl, rfl, rfl⟩

/-- C9 amended: when replay meets a record whose kind byte is neither 0
nor 1 it always fails with some error; and whenever the record's
key-length field and key bytes are fully present, that error is the
corrupt-record error carrying the invalid kind byte's value (not the
offset). -/
theorem corrupt_kind_fails (file : List Nat) (idx : Index) (pos : Nat)
    (h1 : pos < file.length) (h2 : file.getD pos 0 ≠ 0) (h3 : file.getD pos 0 ≠ 1) :
    (∃ e, (buildIndexLoop file idx pos).2 = some e)
    ∧ (pos + 5 + dec32 (readBytes file (pos + 1) 4) ≤ file.length →
        buildIndexLoop file idx pos
          = (idx, some ("invalid record type: " ++ toString (file.getD pos 0)))) := by
  by_cases hshort : file.length < pos + 5
  · have hstep : ∃ e, buildIndexStep file idx pos = .done (idx, some e) := by
      simp only [buildIndexStep]
      rw [if_neg (by omega), if_pos hshort]
      by_cases h5 : file.length ≤ pos + 1
      · exact ⟨_, by rw [if_pos h5]⟩
      · exact ⟨_, by rw [if_neg h5]⟩
    obtain ⟨e, he⟩ := hstep
    exact ⟨⟨e, by rw [buildIndexLoop_done he]⟩, fun hc => absurd hc (by omega)⟩
  · by_cases hguard : dec32 (readBytes file (pos + 1) 4) ≠ 0 ∧ file.length - (pos + 5) = 0
    · have hstep : buildIndexStep file idx pos = .done (idx, some "EOF") := by
        simp only [buildIndexStep]
        rw [if_neg (by omega), if_neg hshort, if_pos hguard]
      exact ⟨⟨"EOF", by rw [buildIndexLoop_done hstep]⟩, fun hc => absurd hc (by omega)⟩
    · have hstep : buildIndexStep file idx pos
          = .done (idx, some ("invalid record type: " ++ toString (file.getD pos 0))) := by
        simp only [buildIndexStep]
        rw [if_neg (by omega), if_neg hshort, if_neg hguard, if_neg h2, if_neg h3]
      exact ⟨⟨_, by rw [buildIndexLoop_done hstep]⟩, fun _ => buildIndexLoop_done hstep⟩

/-- Witness for the amended C9 at a concrete corrupt log. -/
theorem corrupt_kind_fails_witness :
    (0 < ([5, 0, 0, 0, 0] : List Nat).length)
    ∧ ([5, 0, 0, 0, 0] : List Nat).getD 0 0 ≠ 0
    ∧ ([5, 0, 0, 0, 0] : List Nat).getD 0 0 ≠ 1
    ∧ ((∃ e, (buildIndexLoop [5, 0, 0, 0, 0] [] 0).2 = some e)
        ∧ (0 + 5 + dec32 (readBytes [5, 0, 0, 0, 0] (0 + 1) 4) ≤ ([5, 0, 0, 0, 0] : List Nat).length →
            buildIndexLoop [5, 0, 0, 0, 0] [] 0
              = ([], some ("invalid record type: " ++ toString (([5, 0, 0, 0, 0] : List Nat).getD 0 0))))) :=
  ⟨by decide, by decide, by decide,
    corrupt_kind_fails [5, 0, 0, 0, 0] [] 0 (by decide) (by decide) (by decide)⟩

/-! ### Polish failure paths -/

/-- C8: any failure of `Polish` before the rename — the backup copy,
the temp-file creation, the temp-file writes, or the value reads that
feed them — makes `Polish` return an error while the live file's bytes
and the in-memory index are exactly as before (only the handle offset
may have moved): the caller still holds a working store. -/
theorem polish_failure_frame (st : Store) (b t w : Bool)
    (h : b = false ∨ t = false ∨ w = false
      ∨ ∃ e0, (activeRecords st.file st.index st.pos).2 = Except.error e0) :
    ∃ e, (PolishAttempt st b t w).2 = some e
      ∧ (PolishAttempt st b t w).1.file = st.file
      ∧ (PolishAttempt st b t w).1.index = st.index := by
  cases hb : b with
  | false =>
    exact ⟨"failed to create backup before polish", by simp [PolishAttempt], by
      simp [PolishAttempt], by simp [PolishAttempt]⟩
  | true =>
    cases ht : t with
    | false =>
      exact ⟨"failed to create temp file", by simp [PolishAttempt], by
        simp [PolishAttempt], by simp [PolishAttempt]⟩
    | true =>
      cases har : activeRecords st.file st.index st.pos with
      | mk p r =>
        cases r with
        | error e0 =>
          exact ⟨e0, by simp [PolishAttempt, har], by simp [PolishAttempt, har], by
            simp [PolishAttempt, har]⟩
        | ok newFile =>
          have hw : w = false := by
            rcases h with h | h | h | ⟨e0, he⟩
            · rw [hb] at h; cases h
            · rw [ht] at h; cases h
            · exact h
            · rw [har] at he; cases he
          subst hw
          exact ⟨"failed to write polished record", by simp [PolishAttempt, har], by
            simp [PolishAttempt, har], by simp [PolishAttempt, har]⟩

/-- Witness for C8: a failing backup step on the empty store. -/
theorem polish_failure_frame_witness :
    ((false : Bool) = false ∨ (true : Bool) = false ∨ (true : Bool) = false
      ∨ ∃ e0, (activeRecords emptyStore.file emptyStore.index emptyStore.pos).2
          = Except.error e0)
    ∧ ∃ e, (PolishAttempt emptyStore false true true).2 = some e
      ∧ (PolishAttempt emptyStore false true true).1.file = emptyStore.file
      ∧ (PolishAttempt emptyStore false true true).1.index = emptyStore.index :=
  ⟨Or.inl rfl, polish_failure_frame emptyStore false true true (Or.inl rfl)⟩

/-! ### The reachable-store invariant -/

theorem storeOK_empty : StoreOK emptyStore :=
  ⟨List.nodup_nil, fun e he => absurd he (List.not_mem_nil e),
    fun e he => absurd he (List.not_mem_nil e), by simp [emptyStore]⟩

theorem entryValLen_append {file : List Nat} (g : List Nat) {e : List Nat × Nat}
    (h : e.2 + 4 ≤ file.length) :
    entryValLen (file ++ g) e = entryValLen file e := by
  unfold entryValLen
  rw [readBytes_append_left _ (by omega)]

theorem storeOK_Set {st : Store} (h : StoreOK st) {k v : List Nat}
    (hk : k.length < 2 ^ 32) (hv : v.length < 2 ^ 32) : StoreOK (Set st k v) := by
  have g := goodAt_Set st k v
  rw [Set_eq] at g ⊢
  obtain ⟨g1, g2, g3, g4⟩ := g
  constructor
  · exact nodup_keys_idxSet _ _ h.nodup
  · intro e he
    rcases mem_idxSet he with ⟨he1, _⟩ | rfl
    · exact h.keysWF e he1
    · exact hk
  · intro e he
    rcases mem_idxSet he with ⟨he1, _⟩ | rfl
    · obtain ⟨w, hw1, hw2, hw3, hw4⟩ := h.entries e he1
      exact ⟨w, hw1, by simp only [List.length_append]; omega,
        by rw [readBytes_append_left _ (by omega)]; exact hw3,
        by rw [readBytes_append_left _ (by omega)]; exact hw4⟩
    · exact ⟨v, hv, g2, g3, g4⟩
  · have hval : entryValLen (st.file ++ setRecord k v)
        (k, st.file.length + 5 + k.length) = v.length := by
      unfold entryValLen
      rw [show ((k, st.file.length + 5 + k.length) : List Nat × Nat).2
          = st.file.length + 5 + k.length from rfl, g3, dec32_le32_of_lt hv]
    have hcong : (idxDel st.index k).map
          (fun e => 9 + e.1.length + entryValLen (st.file ++ setRecord k v) e)
        = (idxDel st.index k).map
          (fun e => 9 + e.1.length + entryValLen st.file e) := by
      apply List.map_congr_left
      intro e he
      obtain ⟨w, hw1, hw2, _, _⟩ := h.entries e (mem_idxDel he).1
      rw [entryValLen_append _ (by omega)]
    have hsub : ((idxDel st.index k).map
          (fun e => 9 + e.1.length + entryValLen st.file e)).sum
        ≤ (st.index.map (fun e => 9 + e.1.length + entryValLen st.file e)).sum :=
      List.Sublist.sum_le_sum ((List.filter_sublist _).map _) (fun a _ => Nat.zero_le a)
    have hspan := h.span
    rw [show idxSet st.index k (st.file.length + 5 + k.length)
        = idxDel st.index k ++ [(k, st.file.length + 5 + k.length)] from rfl,
      List.map_append, List.sum_append, hcong]
    simp only [List.map_cons, List.map_nil, List.sum_cons, List.sum_nil, hval,
      List.length_append, setRecord_length]
    omega

theorem storeOK_Delete {st : Store} (h : StoreOK st) {k : List Nat} :
    StoreOK (Delete st k) := by
  rw [Delete_eq]
  constructor
  · exact nodup_keys_idxDel _ h.nodup
  · intro e he
    exact h.keysWF e (mem_idxDel he).1
  · intro e he
    obtain ⟨w, hw1, hw2, hw3, hw4⟩ := h.entries e (mem_idxDel he).1
    exact ⟨w, hw1, by simp only [List.length_append]; omega,
      by rw [readBytes_append_left _ (by omega)]; exact hw3,
      by rw [readBytes_append_left _ (by omega)]; exact hw4⟩
  · have hcong : (idxDel st.index k).map
          (fun e => 9 + e.1.length + entryValLen (st.file ++ delRecord k) e)
        = (idxDel st.index k).map
          (fun e => 9 + e.1.length + entryValLen st.file e) := by
      apply List.map_congr_left
      intro e he
      obtain ⟨w, hw1, hw2, _, _⟩ := h.entries e (mem_idxDel he).1
      rw [entryValLen_append _ (by omega)]
    have hsub : ((idxDel st.index k).map
          (fun e => 9 + e.1.length + entryValLen st.file e)).sum
        ≤ (st.index.map (fun e => 9 + e.1.length + entryValLen st.file e)).sum :=
      List.Sublist.sum_le_sum ((List.filter_sublist _).map _) (fun a _ => Nat.zero_le a)
    have hspan := h.span
    rw [hcong]
    simp only [List.length_append]
    omega

theorem storeOK_applyOp {st : Store} {op : Op} (h : StoreOK st) (hop : opWF op) :
    StoreOK (applyOp st op) := by
  cases op with
  | set k v => exact storeOK_Set h hop.1 hop.2
  | del k => exact storeOK_Delete h

theorem storeOK_applyOps (ops : List Op) : ∀ (st : Store), StoreOK st → OpsWF ops →
    StoreOK (applyOps st ops) := by
  induction ops with
  | nil => intro st h _; exact h
  | cons op rest ih =>
    intro st h hwf
    exact ih (applyOp st op) (storeOK_applyOp h (hwf op (List.mem_cons_self _ _)))
      (fun o ho => hwf o (List.mem_cons_of_mem _ ho))

/-! ### The active-record loop on a well-formed store -/

theorem entryVal_eq {st : Store} (hOK : StoreOK st) {e : List Nat × Nat}
    (he : e ∈ st.index) :
    ∃ v : List Nat, entryVal st.file e = v ∧ v.length < 2 ^ 32
      ∧ e.2 + 4 + v.length ≤ st.file.length
      ∧ readBytes st.file e.2 4 = le32 v.length
      ∧ readBytes st.file (e.2 + 4) v.length = v := by
  obtain ⟨v, h1, h2, h3, h4⟩ := hOK.entries e he
  refine ⟨v, ?_, h1, h2, h3, h4⟩
  unfold entryVal entryValLen
  rw [h3, dec32_le32_of_lt h1, h4]

theorem entryVal_length {st : Store} (hOK : StoreOK st) {e : List Nat × Nat}
    (he : e ∈ st.index) :
    (entryVal st.file e).length = entryValLen st.file e := by
  obtain ⟨v, hveq, hv1, _, h3, _⟩ := entryVal_eq hOK he
  rw [hveq]
  unfold entryValLen
  rw [h3, dec32_le32_of_lt hv1]

theorem activeRecords_ok (file : List Nat) (entries : Index) : ∀ (pos : Nat),
    (∀ e ∈ entries, ∃ v : List Nat, v.length < 2 ^ 32
      ∧ e.2 + 4 + v.length ≤ file.length
      ∧ readBytes file e.2 4 = le32 v.length
      ∧ readBytes file (e.2 + 4) v.length = v) →
    ∃ p2, activeRecords file entries pos
      = (p2, Except.ok (encodeOps (entries.map (fun e => Op.set e.1 (entryVal file e))))) := by
  induction entries with
  | nil => intro pos _; exact ⟨pos, rfl⟩
  | cons e rest ih =>
    obtain ⟨k, off⟩ := e
    intro pos hyp
    obtain ⟨v, hv, hb, h3, h4⟩ := hyp (k, off) (List.mem_cons_self _ _)
    have hval : entryVal file (k, off) = v := by
      unfold entryVal entryValLen
      rw [show ((k, off) : List Nat × Nat).2 = off from rfl, h3, dec32_le32_of_lt hv, h4]
    obtain ⟨p2, hrec⟩ := ih (off + 4 + min v.length (file.length - (off + 4)))
      (fun e2 he2 => hyp e2 (List.mem_cons_of_mem _ he2))
    refine ⟨p2, ?_⟩
    simp only [activeRecords, h3, dec32_le32_of_lt hv]
    rw [if_neg (by omega), if_neg (by omega), hrec]
    simp only [List.map_cons, hval,
      show encodeOps (Op.set k v :: rest.map (fun e => Op.set e.1 (entryVal file e)))
        = setRecord k v ++ encodeOps (rest.map (fun e => Op.set e.1 (entryVal file e)))
        from rfl]
    rw [h4, padZeros_of_length_eq rfl]
    rfl

/-! ### Get on a store rebuilt from the live records -/

theorem applyOps_append (st : Store) (l1 l2 : List Op) :
    applyOps st (l1 ++ l2) = applyOps (applyOps st l1) l2 := by
  simp [applyOps, List.foldl_append]

theorem idxGet_applyOps_none (ops : List Op) : ∀ (st : Store) (k : List Nat),
    idxGet st.index k = none → (∀ op ∈ ops, opKey op ≠ k) →
    idxGet (applyOps st ops).index k = none := by
  induction ops with
  | nil => intro st k h _; exact h
  | cons op rest ih =>
    intro st k h hops
    apply ih
    · cases op with
      | set k2 v2 =>
        have hne : k ≠ k2 := fun he => hops _ (List.mem_cons_self _ _) (he ▸ rfl)
        rw [show (applyOp st (Op.set k2 v2)).index
            = (Set st k2 v2).index from rfl, Set_eq]
        rw [idxGet_idxSet_ne _ _ _ _ hne]
        exact h
      | del k2 =>
        have hne : k ≠ k2 := fun he => hops _ (List.mem_cons_self _ _) (he ▸ rfl)
        rw [show (applyOp st (Op.del k2)).index = (Delete st k2).index from rfl, Delete_eq]
        rw [idxGet_idxDel_ne _ _ _ hne]
        exact h
    · exact fun o ho => hops o (List.mem_cons_of_mem _ ho)

theorem get_snd_congr {s1 s2 : Store} (hf : s1.file = s2.file)
    (hi : s1.index = s2.index) (k : List Nat) : (Get s1 k).2 = (Get s2 k).2 := by
  obtain ⟨f1, i1, p1⟩ := s1
  obtain ⟨f2, i2, p2⟩ := s2
  simp only at hf hi
  subst hf
  subst hi
  cases h : idxGet i1 k with
  | none => simp [Get, h]
  | some off => simp only [Get, h]

/-- The heart of C4 and C5: replaying one freshly encoded Set record
per live key of a well-formed store — on top of any base store whose
index has no keys beyond the source's — reproduces the source's
Get-visible mapping exactly. -/
theorem get_rebuilt (st : Store) (hOK : StoreOK st) (base : Store)
    (hbase : ∀ k2, idxGet st.index k2 = none → idxGet base.index k2 = none)
    (k : List Nat) :
    (Get (applyOps base (liveOps st)) k).2 = (Get st k).2 := by
  cases hk : idxGet st.index k with
  | some off =>
    have hmem := mem_of_idxGet_eq_some hk
    obtain ⟨v, hveq, hv1, hv2, hv3, hv4⟩ := entryVal_eq hOK hmem
    have hst : (Get st k).2 = Except.ok v := Get_of_goodAt hv1 ⟨hk, hv2, hv3, hv4⟩
    obtain ⟨a, b, hab⟩ := List.append_of_mem hmem
    have hsplit : liveOps st
        = a.map (fun e => Op.set e.1 (entryVal st.file e))
          ++ Op.set k (entryVal st.file (k, off))
            :: b.map (fun e => Op.set e.1 (entryVal st.file e)) := by
      rw [liveOps, hab, List.map_append, List.map_cons]
    have hnd := hOK.nodup
    rw [hab, List.map_append, List.map_cons] at hnd
    have hknot : ((k, off) : List Nat × Nat).1 ∉ b.map (fun e => e.1) :=
      (List.nodup_cons.mp hnd.of_append_right).1
    have hsuf : ∀ op ∈ b.map (fun e => Op.set e.1 (entryVal st.file e)), opKey op ≠ k := by
      intro op hop
      obtain ⟨e, he, rfl⟩ := List.mem_map.mp hop
      intro hek
      exact hknot (List.mem_map.mpr ⟨e, he, hek⟩)
    rw [hst, hsplit, applyOps_append,
      show applyOps (applyOps base (a.map (fun e => Op.set e.1 (entryVal st.file e))))
          (Op.set k (entryVal st.file (k, off))
            :: b.map (fun e => Op.set e.1 (entryVal st.file e)))
        = applyOps (Set (applyOps base (a.map (fun e => Op.set e.1 (entryVal st.file e))))
            k (entryVal st.file (k, off)))
          (b.map (fun e => Op.set e.1 (entryVal st.file e))) from rfl,
      hveq]
    exact Get_of_goodAt hv1 (goodAt_applyOps _ _ hsuf (goodAt_Set _ k v))
  | none =>
    have h2 : idxGet base.index k = none := hbase k hk
    have hops : ∀ op ∈ liveOps st, opKey op ≠ k := by
      intro op hop
      obtain ⟨e, he, rfl⟩ := List.mem_map.mp hop
      exact fun hek => ((idxGet_eq_none_iff _ _).mp hk e he) hek
    have h3 : idxGet (applyOps base (liveOps st)).index k = none :=
      idxGet_applyOps_none _ _ _ h2 hops
    simp [Get, hk, h3]

theorem liveOps_wf {st : Store} (hOK : StoreOK st) : OpsWF (liveOps st) := by
  intro op hop
  obtain ⟨e, he, rfl⟩ := List.mem_map.mp hop
  obtain ⟨v, hveq, hv1, _, _, _⟩ := entryVal_eq hOK he
  exact ⟨hOK.keysWF e he, by rw [hveq]; exact hv1⟩

theorem encodeOps_length (l : List Op) :
    (encodeOps l).length = (l.map (fun op => (encodeOp op).length)).sum := by
  induction l with
  | nil => rfl
  | cons op rest ih =>
    rw [show encodeOps (op :: rest) = encodeOp op ++ encodeOps rest from rfl,
      List.length_append, ih, List.map_cons, List.sum_cons]

/-! ### Compaction and backup -/

/-- C4: on every reachable store a successful `Polish` preserves the
Get-visible mapping exactly — every live key still returns its
previous value and every absent or deleted key still fails with
key-not-found — the new log is the concatenation of exactly one
freshly encoded Set record per live key (no tombstones, keys unique),
its size equals the sum of the live records' encoded sizes, and it is
at most the pre-compaction file size. -/
theorem polish_correct (ops : List Op) (st : Store) (hwf : OpsWF ops)
    (hst : st = applyOps emptyStore ops) :
    (Polish st).2 = none
    ∧ (∀ k, (Get (Polish st).1 k).2 = (Get st k).2)
    ∧ (Polish st).1.file = encodeOps (liveOps st)
    ∧ (st.index.map (fun e => e.1)).Nodup
    ∧ (Polish st).1.file.length
        = ((st.index.map (fun e => (setRecord e.1 (entryVal st.file e)).length)).sum)
    ∧ (Polish st).1.file.length ≤ st.file.length := by
  have hOK : StoreOK st := hst ▸ storeOK_applyOps ops emptyStore storeOK_empty hwf
  obtain ⟨p2, har⟩ := activeRecords_ok st.file st.index st.pos hOK.entries
  have hreb := replay_ops (liveOps st) [] st.index 0 (liveOps_wf hOK)
  rw [List.nil_append] at hreb
  simp only [List.length_nil] at hreb
  simp only [liveOps] at hreb
  have hpol : Polish st
      = ({ file := encodeOps (st.index.map (fun e => Op.set e.1 (entryVal st.file e))),
           index := (applyOps { file := [], index := st.index, pos := 0 }
             (st.index.map (fun e => Op.set e.1 (entryVal st.file e)))).index,
           pos := (encodeOps (st.index.map (fun e => Op.set e.1 (entryVal st.file e)))).length },
         none) := by
    simp [Polish, PolishAttempt, har, buildIndex, hreb]
  have hp1 : (Polish st).1
      = { file := encodeOps (st.index.map (fun e => Op.set e.1 (entryVal st.file e))),
          index := (applyOps { file := [], index := st.index, pos := 0 }
            (st.index.map (fun e => Op.set e.1 (entryVal st.file e)))).index,
          pos := (encodeOps (st.index.map (fun e => Op.set e.1 (entryVal st.file e)))).length } := by
    rw [hpol]
  have hp2 : (Polish st).2 = none := by rw [hpol]
  have hlensum : (encodeOps (st.index.map (fun e => Op.set e.1 (entryVal st.file e)))).length
      = (st.index.map (fun e => (setRecord e.1 (entryVal st.file e)).length)).sum := by
    rw [encodeOps_length, List.map_map]
    rfl
  refine ⟨hp2, ?_, by rw [hp1]; simp only [liveOps], hOK.nodup, ?_, ?_⟩
  · intro k
    have hgr := get_rebuilt st hOK { file := [], index := st.index, pos := 0 }
      (fun k2 h => h) k
    simp only [liveOps] at hgr
    rw [hp1]
    refine Eq.trans ?_ hgr
    apply get_snd_congr
    · simp [applyOps_file]
    · rfl
  · rw [hp1]
    exact hlensum
  · rw [hp1]
    show (encodeOps (st.index.map (fun e => Op.set e.1 (entryVal st.file e)))).length
      ≤ st.file.length
    rw [hlensum]
    have hcong : st.index.map (fun e => (setRecord e.1 (entryVal st.file e)).length)
        = st.index.map (fun e => 9 + e.1.length + entryValLen st.file e) := by
      apply List.map_congr_left
      intro e he
      rw [setRecord_length, entryVal_length hOK he]
    rw [hcong]
    exact hOK.span

/-- Witness for C4 at a concrete reachable store. -/
theorem polish_correct_witness :
    OpsWF [Op.set [2] [7, 8], Op.set [3] [], Op.del [2]]
    ∧ ((Polish (applyOps emptyStore [Op.set [2] [7, 8], Op.set [3] [], Op.del [2]])).2 = none
      ∧ (∀ k, (Get (Polish (applyOps emptyStore
            [Op.set [2] [7, 8], Op.set [3] [], Op.del [2]])).1 k).2
          = (Get (applyOps emptyStore [Op.set [2] [7, 8], Op.set [3] [], Op.del [2]]) k).2)
      ∧ (Polish (applyOps emptyStore [Op.set [2] [7, 8], Op.set [3] [], Op.del [2]])).1.file
          = encodeOps (liveOps (applyOps emptyStore
              [Op.set [2] [7, 8], Op.set [3] [], Op.del [2]]))
      ∧ (((applyOps emptyStore [Op.set [2] [7, 8], Op.set [3] [], Op.del [2]]).index.map
            (fun e => e.1)).Nodup)
      ∧ (Polish (applyOps emptyStore
            [Op.set [2] [7, 8], Op.set [3] [], Op.del [2]])).1.file.length
          = (((applyOps emptyStore [Op.set [2] [7, 8], Op.set [3] [], Op.del [2]]).index.map
              (fun e => (setRecord e.1 (entryVal (applyOps emptyStore
                [Op.set [2] [7, 8], Op.set [3] [], Op.del [2]]).file e)).length)).sum)
      ∧ (Polish (applyOps emptyStore
            [Op.set [2] [7, 8], Op.set [3] [], Op.del [2]])).1.file.length
          ≤ (applyOps emptyStore [Op.set [2] [7, 8], Op.set [3] [], Op.del [2]]).file.length) :=
  ⟨by decide, polish_correct [Op.set [2] [7, 8], Op.set [3] [], Op.del [2]] _ (by decide) rfl⟩

/-- C5: on every reachable store, a full backup is byte-for-byte the
live file and leaves the store untouched; a polished backup leaves the
source store's file and index untouched, and the file it produces,
opened independently by `NewStore`'s open-plus-replay, yields exactly
the live key set and values of the source store at backup time. -/
theorem backup_correct (ops : List Op) (st : Store) (hwf : OpsWF ops)
    (hst : st = applyOps emptyStore ops) :
    Backup st false = (st, Except.ok st.file)
    ∧ ∃ bts st2, (Backup st true).1.file = st.file
      ∧ (Backup st true).1.index = st.index
      ∧ (Backup st true).2 = Except.ok bts
      ∧ NewStore bts = Except.ok st2
      ∧ ∀ k, (Get st2 k).2 = (Get st k).2 := by
  have hOK : StoreOK st := hst ▸ storeOK_applyOps ops emptyStore storeOK_empty hwf
  obtain ⟨p2, har⟩ := activeRecords_ok st.file st.index st.pos hOK.entries
  have hreb := replay_ops (liveOps st) [] [] 0 (liveOps_wf hOK)
  rw [List.nil_append] at hreb
  simp only [List.length_nil] at hreb
  simp only [liveOps] at hreb
  have hback : Backup st true
      = ({ st with pos := p2 },
         Except.ok (encodeOps (st.index.map (fun e => Op.set e.1 (entryVal st.file e))))) := by
    simp [Backup, har]
  have hnew : NewStore (encodeOps (st.index.map (fun e => Op.set e.1 (entryVal st.file e))))
      = Except.ok (Store.mk (encodeOps (st.index.map (fun e => Op.set e.1 (entryVal st.file e))))
          (applyOps (Store.mk [] [] 0)
            (st.index.map (fun e => Op.set e.1 (entryVal st.file e)))).index
          (encodeOps (st.index.map (fun e => Op.set e.1 (entryVal st.file e)))).length) := by
    unfold NewStore buildIndex
    rw [hreb]
  refine ⟨rfl, encodeOps (st.index.map (fun e => Op.set e.1 (entryVal st.file e))), _,
    by rw [hback], by rw [hback], by rw [hback], hnew, ?_⟩
  intro k
  have hgr := get_rebuilt st hOK { file := [], index := [], pos := 0 }
    (fun k2 _ => rfl) k
  simp only [liveOps] at hgr
  refine Eq.trans ?_ hgr
  apply get_snd_congr
  · simp [applyOps_file]
  · rfl

/-- Witness for C5 at a concrete reachable store. -/
theorem backup_correct_witness :
    OpsWF [Op.set [9] [1], Op.set [9] [2], Op.del [8]]
    ∧ (Backup (applyOps emptyStore [Op.set [9] [1], Op.set [9] [2], Op.del [8]]) false
        = (applyOps emptyStore [Op.set [9] [1], Op.set [9] [2], Op.del [8]],
           Except.ok (applyOps emptyStore [Op.set [9] [1], Op.set [9] [2], Op.del [8]]).file)
      ∧ ∃ bts st2,
        (Backup (applyOps emptyStore [Op.set [9] [1], Op.set [9] [2], Op.del [8]]) true).1.file
          = (applyOps emptyStore [Op.set [9] [1], Op.set [9] [2], Op.del [8]]).file
        ∧ (Backup (applyOps emptyStore [Op.set [9] [1], Op.set [9] [2], Op.del [8]]) true).1.index
          = (applyOps emptyStore [Op.set [9] [1], Op.set [9] [2], Op.del [8]]).index
        ∧ (Backup (applyOps emptyStore [Op.set [9] [1], Op.set [9] [2], Op.del [8]]) true).2
          = Except.ok bts
        ∧ NewStore bts = Except.ok st2
        ∧ ∀ k, (Get st2 k).2
          = (Get (applyOps emptyStore [Op.set [9] [1], Op.set [9] [2], Op.del [8]]) k).2) :=
  ⟨by decide, backup_correct [Op.set [9] [1], Op.set [9] [2], Op.del [8]] _ (by decide) rfl⟩

end StoneKV
